import Mathlib

/-!
Verification of the qznt utility toolkit core: the expiring Cache
(passive and bounded active eviction), the recurring-task Loop state
machine, the retry-with-backoff combinator, the Mulberry32 PRNG and the
alias-method weighted sampler.  Each TypeScript unit is shallowly embedded
as an executable Lean definition; stateful classes become explicit state
passing, `Date.now()` becomes an explicit `now : Nat` argument, and the
JavaScript event loop becomes a small-step action semantics.
-/

namespace Qznt

/-! ## Expiring Cache (src `Cache.ts`)

The cache stores `Map<string | number, { value, expiresAt }>`.  A JS `Map`
preserves insertion order, `set` on an existing key updates it in place,
and `delete` removes it; we model the map as an association list in
insertion order. -/

/-- One cache slot: `{ value: T; expiresAt: number | null }`. -/
structure Entry (V : Type) where
  value : V
  expiresAt : Option Nat
  deriving DecidableEq

/-- The internal `Map`, as an insertion-ordered association list. -/
abbrev CacheMap (K V : Type) := List (K × Entry V)

/-- JS `Map.prototype.set`: update in place if the key exists, else append. -/
def mapSet {K V : Type} [DecidableEq K] (m : CacheMap K V) (k : K) (e : Entry V) :
    CacheMap K V :=
  if m.any (fun p => p.1 = k) then
    m.map (fun p => if p.1 = k then (k, e) else p)
  else
    m ++ [(k, e)]

/-- JS `Map.prototype.get`. -/
def mapFind {K V : Type} [DecidableEq K] (m : CacheMap K V) (k : K) : Option (Entry V) :=
  (m.find? (fun p => p.1 = k)).map Prod.snd

/-- JS `Map.prototype.delete`. -/
def mapDelete {K V : Type} [DecidableEq K] (m : CacheMap K V) (k : K) : CacheMap K V :=
  m.filter (fun p => !(p.1 = k : Bool))

namespace Cache

/-- `Cache.set`: `expiresAt = ttlMs ? Date.now() + ttlMs : null`.
JS truthiness: a `ttlMs` of `0` is falsy, so it yields `null` (no expiry),
exactly like omitting `ttlMs`. -/
def set {K V : Type} [DecidableEq K] (c : CacheMap K V) (k : K) (v : V)
    (ttlMs : Option Nat) (now : Nat) : CacheMap K V :=
  mapSet c k
    { value := v
      expiresAt :=
        match ttlMs with
        | none => none
        | some t => if t = 0 then none else some (now + t) }

/-- The test `data.expiresAt && now > data.expiresAt`: with JS truthiness an
`expiresAt` of `0` is falsy, hence never treated as expired. -/
def isExpiredB {V : Type} (now : Nat) (e : Entry V) : Bool :=
  match e.expiresAt with
  | none => false
  | some exp => !(exp = 0 : Bool) && decide (now > exp)

/-- `Cache.get`: miss returns `null`; an expired hit is deleted (passive
eviction) and returns `null`; otherwise the value is returned.  The second
component is the cache map after the call. -/
def get {K V : Type} [DecidableEq K] (c : CacheMap K V) (k : K) (now : Nat) :
    Option V × CacheMap K V :=
  match mapFind c k with
  | none => (none, c)
  | some e =>
      if isExpiredB now e then (none, mapDelete c k)
      else (some e.value, c)

/-- `Cache.cleanup`: one active-eviction tick.  It iterates the map in
insertion order, deletes expired entries, and breaks after processing
`maxKeysToScan = 20` entries, so exactly the first 20 entries (or fewer)
are examined and the tail is untouched. -/
def cleanup {K V : Type} (now : Nat) (c : CacheMap K V) : CacheMap K V :=
  if c.isEmpty then c
  else (c.take 20).filter (fun p => !isExpiredB now p.2) ++ c.drop 20

/-- `k` successive cleanup ticks at a fixed instant `now`. -/
def cleanupIter {K V : Type} (now : Nat) : Nat → CacheMap K V → CacheMap K V
  | 0, c => c
  | n + 1, c => cleanupIter now n (cleanup now c)

/-- `Cache.clear`. -/
def clear {K V : Type} : CacheMap K V := []

end Cache

/-- Caches producible by the API: every concrete expiry instant is positive
(`Cache.set` writes `now + ttl` with a truthy, hence nonzero, `ttl`). -/
def CacheWF {K V : Type} (c : CacheMap K V) : Prop :=
  ∀ p ∈ c, ∀ exp, (Prod.snd p).expiresAt = some exp → 0 < exp

theorem mapFind_mapSet {K V : Type} [DecidableEq K] (c : CacheMap K V) (k : K)
    (e : Entry V) : mapFind (mapSet c k e) k = some e := by
  unfold mapSet
  by_cases hany : c.any (fun p => p.1 = k) = true
  · simp only [hany, if_true]
    induction c with
    | nil => simp at hany
    | cons x xs ih =>
        by_cases hx : x.1 = k
        · simp [mapFind, List.find?, hx]
        · simp only [List.any_cons, Bool.or_eq_true, decide_eq_true_eq] at hany
          rcases hany with h | h
          · exact absurd h hx
          · simp only [List.map_cons, if_neg hx]
            have ihx := ih h
            simpa [mapFind, List.find?, hx] using ihx
  · simp only [hany, if_false]
    rw [Bool.not_eq_true] at hany
    induction c with
    | nil => simp [mapFind, List.find?]
    | cons x xs ih =>
        simp only [List.any_cons, Bool.or_eq_false_iff, decide_eq_false_iff_not] at hany
        have hx : ¬ x.1 = k := hany.1
        have ihx := ih hany.2
        simpa [mapFind, List.find?, hx] using ihx

theorem mapFind_mapDelete {K V : Type} [DecidableEq K] (c : CacheMap K V) (k : K) :
    mapFind (mapDelete c k) k = none := by
  induction c with
  | nil => simp [mapFind, mapDelete]
  | cons x xs ih =>
      by_cases hx : x.1 = k
      · simp [mapFind, mapDelete, hx]
      · simp [mapFind, mapDelete, List.find?, hx]

theorem mapFind_mem {K V : Type} [DecidableEq K] {c : CacheMap K V} {k : K}
    {e : Entry V} (h : mapFind c k = some e) : ∃ p ∈ c, Prod.snd p = e := by
  unfold mapFind at h
  cases hfq : c.find? (fun p => p.1 = k) with
  | none => rw [hfq] at h; simp at h
  | some p =>
      rw [hfq] at h
      simp at h
      exact ⟨p, List.mem_of_find?_eq_some hfq, h⟩

/-- C1: after `set(k, v, t)` with `t > 0`, a `get(k)` at or before the expiry
instant returns `v`; a `get(k)` strictly after it returns `none` and removes
the entry from the internal map; and on any well-formed cache `get` never
returns a value whose expiry instant is strictly in the past. -/
theorem cache_ttl_get_correct {K V : Type} [DecidableEq K] (c : CacheMap K V)
    (k : K) (v : V) (t now0 now1 : Nat) (ht : 0 < t) :
    ((now1 ≤ now0 + t →
        (Cache.get (Cache.set c k v (some t) now0) k now1).1 = some v) ∧
     (now0 + t < now1 →
        (Cache.get (Cache.set c k v (some t) now0) k now1).1 = none ∧
        mapFind (Cache.get (Cache.set c k v (some t) now0) k now1).2 k = none)) ∧
    (∀ (c2 : CacheMap K V) (nw : Nat) (w : V) (exp : Nat), CacheWF c2 →
        (Cache.get c2 k nw).1 = some w →
        mapFind c2 k = some { value := w, expiresAt := some exp } →
        nw ≤ exp) := by
  have hne : ¬ t = 0 := Nat.pos_iff_ne_zero.mp ht
  have hset : Cache.set c k v (some t) now0
      = mapSet c k { value := v, expiresAt := some (now0 + t) } := by
    simp [Cache.set, hne]
  have hf : mapFind (Cache.set c k v (some t) now0) k
      = some { value := v, expiresAt := some (now0 + t) } := by
    rw [hset]; exact mapFind_mapSet c k _
  have hnz : ¬ now0 + t = 0 := by omega
  refine ⟨⟨?_, ?_⟩, ?_⟩
  · intro h
    have hexp : Cache.isExpiredB now1
        { value := v, expiresAt := some (now0 + t) } = false := by
      simp [Cache.isExpiredB, hnz]; omega
    simp [Cache.get, hf, hexp]
  · intro h
    have hexp : Cache.isExpiredB now1
        { value := v, expiresAt := some (now0 + t) } = true := by
      simp [Cache.isExpiredB, hnz]; omega
    refine ⟨by simp [Cache.get, hf, hexp], ?_⟩
    simp [Cache.get, hf, hexp, mapFind_mapDelete]
  · intro c2 nw w exp hwf hget hfind
    obtain ⟨p, hp, hpe⟩ := mapFind_mem hfind
    have hpos : 0 < exp := hwf p hp exp (by rw [hpe])
    by_cases hexp : Cache.isExpiredB nw { value := w, expiresAt := some exp } = true
    · exfalso
      simp [Cache.get, hfind, hexp] at hget
    · simp only [Cache.isExpiredB, Bool.and_eq_true, Bool.not_eq_true,
        decide_eq_true_eq, decide_eq_false_iff_not, not_and, Nat.not_lt] at hexp
      by_cases h0 : exp = 0
      · omega
      · exact hexp (by simpa using h0)

/-- Closed witness for `cache_ttl_get_correct` at `k = 0`, `v = 7`, `t = 5`,
`now0 = 0`. -/
theorem cache_ttl_get_correct_witness :
    0 < 5 ∧
    (((3 ≤ 0 + 5 →
        (Cache.get (Cache.set ([] : CacheMap Nat Nat) 0 7 (some 5) 0) 0 3).1 = some 7) ∧
      (0 + 5 < 3 →
        (Cache.get (Cache.set ([] : CacheMap Nat Nat) 0 7 (some 5) 0) 0 3).1 = none ∧
        mapFind (Cache.get (Cache.set ([] : CacheMap Nat Nat) 0 7 (some 5) 0) 0 3).2 0 = none)) ∧
     (∀ (c2 : CacheMap Nat Nat) (nw : Nat) (w : Nat) (exp : Nat), CacheWF c2 →
        (Cache.get c2 0 nw).1 = some w →
        mapFind c2 0 = some { value := w, expiresAt := some exp } →
        nw ≤ exp)) :=
  ⟨by decide, cache_ttl_get_correct [] 0 7 5 0 3 (by decide)⟩

/-- C10: a `ttl` of exactly `0` is falsy in `ttlMs ? Date.now() + ttlMs : null`,
so `set(k, v, 0)` stores the entry with `expiresAt = null`, identically to
omitting the ttl, and every later `get(k)` returns `v`. -/
theorem cache_zero_ttl_never_expires {K V : Type} [DecidableEq K]
    (c : CacheMap K V) (k : K) (v : V) (now0 now1 : Nat) :
    Cache.set c k v (some 0) now0 = Cache.set c k v none now0 ∧
    mapFind (Cache.set c k v (some 0) now0) k = some { value := v, expiresAt := none } ∧
    (Cache.get (Cache.set c k v (some 0) now0) k now1).1 = some v := by
  have h1 : Cache.set c k v (some 0) now0
      = mapSet c k { value := v, expiresAt := none } := by
    simp [Cache.set]
  have h2 : Cache.set c k v none now0
      = mapSet c k { value := v, expiresAt := none } := by
    simp [Cache.set]
  have hf : mapFind (Cache.set c k v (some 0) now0) k
      = some { value := v, expiresAt := none } := by
    rw [h1]; exact mapFind_mapSet c k _
  exact ⟨h1.trans h2.symm, hf, by simp [Cache.get, hf, Cache.isExpiredB]⟩

theorem cleanup_eq {K V : Type} (now : Nat) (c : CacheMap K V) :
    Cache.cleanup now c
      = (c.take 20).filter (fun p => !Cache.isExpiredB now p.2) ++ c.drop 20 := by
  unfold Cache.cleanup
  cases c with
  | nil => simp
  | cons x xs => simp

theorem cleanup_drop_of_all_expired {K V : Type} (now : Nat) (c : CacheMap K V)
    (h : ∀ p ∈ c, Cache.isExpiredB now p.2 = true) :
    Cache.cleanup now c = c.drop 20 := by
  rw [cleanup_eq]
  have hfil : (c.take 20).filter (fun p => !Cache.isExpiredB now p.2) = [] := by
    rw [List.filter_eq_nil_iff]
    intro p hp
    simp [h p (List.mem_of_mem_take hp)]
  rw [hfil, List.nil_append]

theorem cleanupIter_drop_of_all_expired {K V : Type} (now : Nat) (n : Nat)
    (c : CacheMap K V) (h : ∀ p ∈ c, Cache.isExpiredB now p.2 = true) :
    Cache.cleanupIter now n c = c.drop (20 * n) := by
  induction n generalizing c with
  | zero => simp [Cache.cleanupIter]
  | succ m ih =>
      have hstep := cleanup_drop_of_all_expired now c h
      have hdrop : ∀ p ∈ c.drop 20, Cache.isExpiredB now p.2 = true := by
        intro p hp; exact h p (List.mem_of_mem_drop hp)
      calc Cache.cleanupIter now (m + 1) c
          = Cache.cleanupIter now m (Cache.cleanup now c) := rfl
        _ = Cache.cleanupIter now m (c.drop 20) := by rw [hstep]
        _ = (c.drop 20).drop (20 * m) := ih _ hdrop
        _ = c.drop (20 * (m + 1)) := by rw [List.drop_drop]; ring_nf

/-- C4 (amended): each sweep tick removes at most 20 entries, never invents
entries, and keeps every unexpired entry (so it deletes only expired ones);
and when the cache consists solely of expired entries, `ceil(N/20)` ticks
empty it while `ceil(N/20) - 1` ticks do not. -/
theorem cleanup_bounded_sweep (K V : Type) :
    (∀ (now : Nat) (c : CacheMap K V),
        c.length ≤ (Cache.cleanup now c).length + 20) ∧
    (∀ (now : Nat) (c : CacheMap K V) (p : K × Entry V),
        p ∈ Cache.cleanup now c → p ∈ c) ∧
    (∀ (now : Nat) (c : CacheMap K V) (p : K × Entry V),
        p ∈ c → Cache.isExpiredB now p.2 = false → p ∈ Cache.cleanup now c) ∧
    (∀ (now : Nat) (c : CacheMap K V),
        (∀ p ∈ c, Cache.isExpiredB now p.2 = true) →
        Cache.cleanupIter now ((c.length + 19) / 20) c = [] ∧
        (c ≠ [] → Cache.cleanupIter now ((c.length + 19) / 20 - 1) c ≠ [])) := by
  refine ⟨?_, ?_, ?_, ?_⟩
  · intro now c
    rw [cleanup_eq]
    simp only [List.length_append, List.length_drop]
    omega
  · intro now c p hp
    rw [cleanup_eq, List.mem_append] at hp
    rcases hp with hp | hp
    · exact List.mem_of_mem_take (List.mem_of_mem_filter hp)
    · exact List.mem_of_mem_drop hp
  · intro now c p hp hexp
    rw [cleanup_eq, List.mem_append]
    rw [← List.take_append_drop 20 c, List.mem_append] at hp
    rcases hp with hp | hp
    · exact Or.inl (List.mem_filter.mpr ⟨hp, by simp [hexp]⟩)
    · exact Or.inr hp
  · intro now c hall
    have hiter := cleanupIter_drop_of_all_expired now ((c.length + 19) / 20) c hall
    have hiter2 := cleanupIter_drop_of_all_expired now ((c.length + 19) / 20 - 1) c hall
    have hdm := Nat.div_add_mod (c.length + 19) 20
    have hml : (c.length + 19) % 20 < 20 := Nat.mod_lt _ (by norm_num)
    constructor
    · rw [hiter]
      refine List.drop_eq_nil_of_le ?_
      omega
    · intro hne
      rw [hiter2]
      intro hcontra
      have hlen : c.length - 20 * ((c.length + 19) / 20 - 1) = 0 := by
        have := congrArg List.length hcontra
        simpa [List.length_drop] using this
      have hpos : 0 < c.length := List.length_pos.mpr hne
      omega

/-- A cache holding three already-expired entries (`now = 5`). -/
def expiredTriple : CacheMap Nat Nat :=
  [(0, { value := 0, expiresAt := some 1 }),
   (1, { value := 0, expiresAt := some 2 }),
   (2, { value := 0, expiresAt := some 3 })]

/-- Closed witness for `cleanup_bounded_sweep`: three expired entries are
fully reclaimed in `ceil(3/20) = 1` tick, and zero ticks do not reclaim them. -/
theorem cleanup_bounded_sweep_witness :
    Cache.cleanupIter 5 ((expiredTriple.length + 19) / 20) expiredTriple = [] ∧
    (expiredTriple ≠ [] →
      Cache.cleanupIter 5 ((expiredTriple.length + 19) / 20 - 1) expiredTriple ≠ []) :=
  (cleanup_bounded_sweep Nat Nat).2.2.2 5 expiredTriple (by decide)

/-- Twenty never-expiring entries inserted before one expired entry. -/
def blockedCache : CacheMap Nat Nat :=
  (List.range 20).map (fun i => (i, { value := 0, expiresAt := none })) ++
    [(20, { value := 0, expiresAt := some 1 })]

/-- C4 counterexample: with 20 unexpired entries at the front of the scan
order, a sweep tick is the identity, so repeated ticks never reclaim the
expired entry sitting behind them — the sweep does not, in general, reclaim
all expired entries over repeated ticks. -/
theorem cleanup_starvation_cex :
    Cache.cleanup 5 blockedCache = blockedCache ∧
    (20, ({ value := 0, expiresAt := some 1 } : Entry Nat)) ∈ blockedCache ∧
    Cache.isExpiredB 5 ({ value := 0, expiresAt := some 1 } : Entry Nat) = true := by
  refine ⟨by decide, by decide, by decide⟩

/-! ## Mulberry32 PRNG (src `rnd.ts`, `prng`)

All JavaScript bitwise operators coerce their operands to 32 bits; the
signed (`ToInt32`) and unsigned (`ToUint32`) views share one bit pattern and
every operator used here (`^`, `|`, `>>>`, `Math.imul`, the one `+` that
feeds `^=`) acts on that pattern modulo `2^32`, so the state is modelled as
the unsigned pattern, a `Nat` below `2^32`.  The captured `seed` variable
itself is kept exact as an integer. -/

/-- `x >>> 0` / ToUint32: the unsigned 32-bit pattern of an integer. -/
def toUint32 (z : Int) : Nat := (z % (4294967296 : Int)).toNat

/-- `Math.imul`: 32-bit integer multiplication, as a bit pattern. -/
def imul32 (a b : Nat) : Nat := a * b % 4294967296

/-- The Mulberry32 mixing of one advanced accumulator pattern `t0`:
`t = imul(t ^ (t >>> 15), t | 1); t ^= t + imul(t ^ (t >>> 7), t | 61);
(t ^ (t >>> 14)) >>> 0`. -/
def mulberryMix (t0 : Nat) : Nat :=
  let t1 := imul32 (t0 ^^^ (t0 >>> 15)) (t0 ||| 1)
  let t2 := t1 ^^^ ((t1 + imul32 (t1 ^^^ (t1 >>> 7)) (t1 ||| 61)) % 4294967296)
  t2 ^^^ (t2 >>> 14)

/-- The closure returned by `prng(seed)`: its only state is the captured
`seed` variable. -/
structure PrngGen where
  seed : Int
  deriving DecidableEq

/-- `prng(seed)` constructs an independent generator closed over `seed`. -/
def prng (seed : Int) : PrngGen := { seed := seed }

/-- One call of the generator: `seed += 0x6d2b79f5`, mix, and normalise to
`[0, 1)` by dividing by `2^32`. -/
def PrngGen.next (g : PrngGen) : PrngGen × Rat :=
  let s2 := g.seed + 0x6D2B79F5
  ({ seed := s2 }, (mulberryMix (toUint32 s2) : Rat) / 4294967296)

/-- The list of the first `n` outputs of a generator. -/
def prngRun (g : PrngGen) : Nat → List Rat
  | 0 => []
  | n + 1 => g.next.2 :: prngRun g.next.1 n

theorem mulberryMix_lt (t0 : Nat) : mulberryMix t0 < 4294967296 := by
  unfold mulberryMix
  have h32 : (4294967296 : Nat) = 2 ^ 32 := by norm_num
  have h1 : imul32 (t0 ^^^ (t0 >>> 15)) (t0 ||| 1) < 2 ^ 32 := by
    rw [← h32]; exact Nat.mod_lt _ (by norm_num)
  set t1 := imul32 (t0 ^^^ (t0 >>> 15)) (t0 ||| 1) with ht1
  have h2 : (t1 + imul32 (t1 ^^^ (t1 >>> 7)) (t1 ||| 61)) % 4294967296 < 2 ^ 32 := by
    rw [← h32]; exact Nat.mod_lt _ (by norm_num)
  have h3 : t1 ^^^ (t1 + imul32 (t1 ^^^ (t1 >>> 7)) (t1 ||| 61)) % 4294967296 < 2 ^ 32 :=
    Nat.xor_lt_two_pow h1 h2
  set t2 := t1 ^^^ (t1 + imul32 (t1 ^^^ (t1 >>> 7)) (t1 ||| 61)) % 4294967296 with ht2
  have h4 : t2 >>> 14 < 2 ^ 32 :=
    lt_of_le_of_lt (by rw [Nat.shiftRight_eq_div_pow]; exact Nat.div_le_self _ _) h3
  rw [h32]
  exact Nat.xor_lt_two_pow h3 h4

theorem prngRun_output_range {x : Rat} :
    ∀ (n : Nat) (g : PrngGen), x ∈ prngRun g n → 0 ≤ x ∧ x < 1 := by
  intro n
  induction n with
  | zero => intro g hx; simp [prngRun] at hx
  | succ m ih =>
      intro g hx
      rw [prngRun, List.mem_cons] at hx
      rcases hx with hx | hx
      · subst hx
        simp only [PrngGen.next]
        constructor
        · exact div_nonneg (by positivity) (by norm_num)
        · rw [div_lt_one (by norm_num)]
          exact_mod_cast mulberryMix_lt _
      · exact ih _ hx

theorem prngRun_closed_form (s : Int) (n : Nat) :
    prngRun { seed := s } n
      = (List.range n).map
          (fun (i : Nat) =>
            (mulberryMix (toUint32 (s + ((i : Int) + 1) * 0x6D2B79F5)) : Rat) / 4294967296) := by
  induction n generalizing s with
  | zero => simp [prngRun]
  | succ m ih =>
      rw [prngRun, List.range_succ_eq_map, List.map_cons, List.map_map]
      congr 1
      rw [show ({ seed := s } : PrngGen).next.1 = { seed := s + 0x6D2B79F5 } from rfl,
        ih (s + 0x6D2B79F5)]
      refine List.map_congr_left ?_
      intro i _
      have harg : s + 0x6D2B79F5 + ((i : Int) + 1) * 0x6D2B79F5
          = s + ((Nat.succ i : Int) + 1) * 0x6D2B79F5 := by
        push_cast
        ring
      simp [Function.comp, harg]

/-- C8: two generators independently constructed from `prng(s)` produce the
identical sequence of their first `n` outputs — indeed the whole sequence is
the stated pure function of the seed alone — and every output lies in
`[0, 1)`. -/
theorem prng_deterministic_and_in_range (s : Int) (n : Nat) :
    prngRun (prng s) n = prngRun (prng s) n ∧
    prngRun (prng s) n
      = (List.range n).map
          (fun (i : Nat) =>
            (mulberryMix (toUint32 (s + ((i : Int) + 1) * 0x6D2B79F5)) : Rat) / 4294967296) ∧
    ∀ x ∈ prngRun (prng s) n, 0 ≤ x ∧ x < 1 :=
  ⟨rfl, prngRun_closed_form s n, fun _ hx => prngRun_output_range n (prng s) hx⟩

/-- Closed witness for `prng_deterministic_and_in_range` at seed `123`,
one draw. -/
theorem prng_deterministic_and_in_range_witness :
    0 ≤ (mulberryMix (toUint32 (123 + 0x6D2B79F5)) : Rat) / 4294967296 ∧
    (mulberryMix (toUint32 (123 + 0x6D2B79F5)) : Rat) / 4294967296 < 1 :=
  (prng_deterministic_and_in_range 123 1).2.2 _
    (by simp [prngRun, PrngGen.next, prng])

/-! ## retry with exponential backoff (src `async.ts`, `retry`)

The embedding models `retry` with the `timeout` option absent (so
`executeWithTimeout()` is exactly `fn(signal)`), since the actual backoff
duration, the jitter and the per-attempt timeout influence only wall-clock
timing, not which value the caller observes.  Attempt `i`'s behaviour is
`fn i`; the `AbortSignal` is sampled at the three suspension-free check
points of the source, numbered on a logical timeline: `sig (3*i)` is the
`signal?.aborted` guard at the top of the call handling attempt `i`,
`sig (3*i + 1)` is the `signal?.aborted` re-check in the catch block, and
`sig (3*i + 2)` tells whether the signal aborts during the backoff wait
(rejecting the wait promise with the `"Operation aborted"` error). -/

/-- Failures a `retry` caller can observe: the wrapped operation's own last
error, or the distinct `"Operation aborted"` cancellation error. -/
inductive RetryFailure (E : Type) where
  | op (e : E)
  | aborted
  deriving DecidableEq

/-- `retry(fn, { retries, signal })` for the call handling attempt `i`;
returns the settled result together with the number of times `fn` was
invoked from this point on. -/
def retryGo {E T : Type} (fn : Nat → Except E T) (sig : Nat → Bool) :
    Nat → Nat → Except (RetryFailure E) T × Nat
  | retries, i =>
    if sig (3 * i) then (Except.error RetryFailure.aborted, 0)
    else
      match fn i with
      | Except.ok v => (Except.ok v, 1)
      | Except.error e =>
          if sig (3 * i + 1) then (Except.error (RetryFailure.op e), 1)
          else if hr : retries = 0 then (Except.error (RetryFailure.op e), 1)
          else if sig (3 * i + 2) then (Except.error RetryFailure.aborted, 1)
          else
            let r := retryGo fn sig (retries - 1) (i + 1)
            (r.1, r.2 + 1)
  termination_by retries _ => retries
  decreasing_by omega

/-- Top-level `retry` call: attempt numbering starts at 0. -/
def retryRun {E T : Type} (fn : Nat → Except E T) (sig : Nat → Bool)
    (retries : Nat) : Except (RetryFailure E) T × Nat :=
  retryGo fn sig retries 0

/-- C6: with `retries = 3` and an operation that fails on every attempt (and
no cancellation), the operation is invoked exactly 4 times — one initial
attempt plus three retries — and the caller observes the failure of the
fourth (last) attempt. -/
theorem retry_exhaustion {E T : Type} (fn : Nat → Except E T) (es : Nat → E)
    (hf : ∀ i, fn i = Except.error (es i)) :
    retryRun fn (fun _ => false) 3
      = (Except.error (RetryFailure.op (es 3)), 4) := by
  unfold retryRun
  rw [retryGo, retryGo, retryGo, retryGo]
  simp [hf]

/-- Closed witness for `retry_exhaustion`. -/
theorem retry_exhaustion_witness :
    retryRun (fun i => (Except.error i : Except Nat Nat)) (fun _ => false) 3
      = (Except.error (RetryFailure.op 3), 4) :=
  retry_exhaustion (fun i => Except.error i) (fun i => i) (fun _ => rfl)

/-- C7: a signal already aborted before `retry` starts yields the aborted
outcome with zero invocations of the operation; a signal that aborts during
the backoff wait after a failed first attempt aborts the wait — the
operation is not invoked again — and yields the aborted outcome; and the
aborted outcome is distinguishable from every ordinary operation failure. -/
theorem retry_cancellation (E T : Type) :
    (∀ (fn : Nat → Except E T) (sig : Nat → Bool) (retries : Nat),
        sig 0 = true →
        retryRun fn sig retries = (Except.error RetryFailure.aborted, 0)) ∧
    (∀ (fn : Nat → Except E T) (sig : Nat → Bool) (retries : Nat) (e : E),
        sig 0 = false → sig 1 = false → sig 2 = true →
        fn 0 = Except.error e → retries ≠ 0 →
        retryRun fn sig retries = (Except.error RetryFailure.aborted, 1)) ∧
    (∀ e : E, RetryFailure.op e ≠ (RetryFailure.aborted : RetryFailure E)) := by
  refine ⟨?_, ?_, ?_⟩
  · intro fn sig retries h0
    unfold retryRun
    rw [retryGo]
    simp [h0]
  · intro fn sig retries e h0 h1 h2 hf hr
    unfold retryRun
    rw [retryGo]
    simp [h0, h1, h2, hf, hr]
  · intro e h
    exact RetryFailure.noConfusion h

/-- Closed witness for `retry_cancellation`: both cancellation scenarios at
concrete inputs. -/
theorem retry_cancellation_witness :
    retryRun (fun i => (Except.error i : Except Nat Nat)) (fun _ => true) 3
      = (Except.error RetryFailure.aborted, 0) ∧
    retryRun (fun i => (Except.error i : Except Nat Nat)) (fun t => decide (2 ≤ t)) 3
      = (Except.error RetryFailure.aborted, 1) :=
  ⟨(retry_cancellation Nat Nat).1 _ _ 3 rfl,
   (retry_cancellation Nat Nat).2.1 _ _ 3 0 rfl rfl rfl rfl (by decide)⟩

/-! ## Weighted sampler, "alias method" (src `rnd.ts`, `sampler`)

The construction divides by the total weight with no zero check, so the
number model must follow IEEE double special values: we extend exact
rationals with NaN and the signed infinities — the values reachable from
finite weights — and give the operators the source uses their IEEE
behaviour on those cases (finite arithmetic stays exact, which is adequate
here since no claim depends on rounding). -/

/-- A JavaScript number as used by the sampler: a finite (exact) value, NaN,
or a signed infinity. -/
inductive JNum where
  | num (q : Rat)
  | nan
  | inf
  | ninf
  deriving DecidableEq

/-- IEEE `+` on the modelled cases. -/
def JNum.add : JNum → JNum → JNum
  | num a, num b => num (a + b)
  | num _, inf => inf
  | num _, ninf => ninf
  | inf, num _ => inf
  | ninf, num _ => ninf
  | inf, inf => inf
  | ninf, ninf => ninf
  | inf, ninf => nan
  | ninf, inf => nan
  | nan, _ => nan
  | _, nan => nan

/-- IEEE `-` on the modelled cases. -/
def JNum.sub : JNum → JNum → JNum
  | num a, num b => num (a - b)
  | num _, inf => ninf
  | num _, ninf => inf
  | inf, num _ => inf
  | ninf, num _ => ninf
  | inf, ninf => inf
  | ninf, inf => ninf
  | inf, inf => nan
  | ninf, ninf => nan
  | nan, _ => nan
  | _, nan => nan

/-- IEEE `*` on the modelled cases (`0 * ∞ = NaN`). -/
def JNum.mul : JNum → JNum → JNum
  | num a, num b => num (a * b)
  | num a, inf => if a = 0 then nan else if 0 < a then inf else ninf
  | num a, ninf => if a = 0 then nan else if 0 < a then ninf else inf
  | inf, num b => if b = 0 then nan else if 0 < b then inf else ninf
  | ninf, num b => if b = 0 then nan else if 0 < b then ninf else inf
  | inf, inf => inf
  | inf, ninf => ninf
  | ninf, inf => ninf
  | ninf, ninf => inf
  | nan, _ => nan
  | _, nan => nan

/-- IEEE `/` on the modelled cases: `0/0 = NaN`, `x/0 = ±∞` for `x ≠ 0`. -/
def JNum.div : JNum → JNum → JNum
  | num a, num b =>
      if b = 0 then (if a = 0 then nan else if 0 < a then inf else ninf)
      else num (a / b)
  | num _, inf => num 0
  | num _, ninf => num 0
  | inf, num b => if 0 ≤ b then inf else ninf
  | ninf, num b => if 0 ≤ b then ninf else inf
  | inf, inf => nan
  | inf, ninf => nan
  | ninf, inf => nan
  | ninf, ninf => nan
  | nan, _ => nan
  | _, nan => nan

/-- IEEE `<`: any comparison with NaN is false. -/
def JNum.ltB : JNum → JNum → Bool
  | num a, num b => decide (a < b)
  | num _, inf => true
  | inf, num _ => false
  | ninf, num _ => true
  | num _, ninf => false
  | ninf, inf => true
  | inf, ninf => false
  | inf, inf => false
  | ninf, ninf => false
  | nan, _ => false
  | _, nan => false

/-- The alias table built by `sampler`: `new Array(len)` starts as holes
(`undefined`), modelled as `none`. -/
structure SamplerTable (T : Type) where
  items : List T
  prob : List (Option JNum)
  aliasIdx : List (Option Nat)

/-- The `while (small.length && large.length)` loop of the construction:
pop `s` and `l`, record `prob[s] = scaled[s]`, `alias[s] = l`, donate the
excess `scaled[l] += scaled[s] - 1`, and requeue `l`.  JS `push`/`pop` act
on the array end; in the list model the head is the stack top.  Returns the
tables plus the residual worklists. -/
def aliasLoop (scaled : List JNum) (small large : List Nat)
    (prob : List (Option JNum)) (aliasIdx : List (Option Nat)) :
    List (Option JNum) × List (Option Nat) × List Nat × List Nat :=
  match small, large with
  | s :: smallT, l :: largeT =>
      let prob2 := prob.set s (some (scaled.getD s JNum.nan))
      let alias2 := aliasIdx.set s (some l)
      let newL := JNum.sub (JNum.add (scaled.getD l JNum.nan) (scaled.getD s JNum.nan))
          (JNum.num 1)
      let scaled2 := scaled.set l newL
      if JNum.ltB newL (JNum.num 1) then
        aliasLoop scaled2 (l :: smallT) largeT prob2 alias2
      else
        aliasLoop scaled2 smallT (l :: largeT) prob2 alias2
  | _, _ => (prob, aliasIdx, small, large)
  termination_by small.length + large.length
  decreasing_by
    all_goals simp_arith

/-- `while (list.length) prob[list.pop()!] = 1`. -/
def drain (idxs : List Nat) (prob : List (Option JNum)) : List (Option JNum) :=
  match idxs with
  | [] => prob
  | i :: rest => drain rest (prob.set i (some (JNum.num 1)))

/-- `sampler(items, selector)`: weights, total, scaled weights
(`w * len / total` — dividing by a zero total with no check), the
small/large partition by `scaled < 1`, the alias loop, and the two drain
loops (`large` first, then `small`). -/
def sampler {T : Type} (items : List T) (selector : T → JNum) : SamplerTable T :=
  let len := items.length
  let weights := items.map selector
  let totalWeight := weights.foldl JNum.add (JNum.num 0)
  let scaled := weights.map (fun w => JNum.div (JNum.mul w (JNum.num len)) totalWeight)
  let part := scaled.enum.foldl
      (fun (sl : List Nat × List Nat) p =>
        if JNum.ltB p.2 (JNum.num 1) then (p.1 :: sl.1, sl.2) else (sl.1, p.1 :: sl.2))
      ([], [])
  let res := aliasLoop scaled part.1 part.2
      (List.replicate len none) (List.replicate len none)
  { items := items
    prob := drain res.2.2.1 (drain res.2.2.2 res.1)
    aliasIdx := res.2.1 }

/-- `pick` with its two uniform draws `u1, u2 ∈ [0,1)` passed explicitly:
`i = floor(u1 * len)`, then `u2 < prob[i] ? items[i] : items[alias[i]]`.
Reading a hole of `prob` (`undefined`) compares like NaN, and `items[x]`
out of range (or at an `undefined` alias) is `none`. -/
def SamplerTable.pick {T : Type} (st : SamplerTable T) (u1 u2 : Rat) : Option T :=
  let len := st.items.length
  let i := (Int.floor (u1 * len)).toNat
  if JNum.ltB (JNum.num u2) ((st.prob.getD i none).getD JNum.nan) then
    st.items.get? i
  else
    match st.aliasIdx.getD i none with
    | none => none
    | some j => st.items.get? j

theorem drain_length (idxs : List Nat) (p : List (Option JNum)) :
    (drain idxs p).length = p.length := by
  induction idxs generalizing p with
  | nil => rfl
  | cons i rest ih => rw [drain, ih, List.length_set]

theorem drain_get?_of_not_mem {j : Nat} :
    ∀ (idxs : List Nat) (p : List (Option JNum)), j ∉ idxs →
      (drain idxs p).get? j = p.get? j := by
  intro idxs
  induction idxs with
  | nil => intro p _; rfl
  | cons i rest ih =>
      intro p hj
      rw [List.mem_cons, not_or] at hj
      rw [drain, ih _ hj.2, List.get?_set, if_neg (fun h => hj.1 h.symm)]

theorem drain_get?_of_mem {j : Nat} :
    ∀ (idxs : List Nat) (p : List (Option JNum)), j ∈ idxs → j < p.length →
      (drain idxs p).get? j = some (some (JNum.num 1)) := by
  intro idxs
  induction idxs with
  | nil => intro p hj _; simp at hj
  | cons i rest ih =>
      intro p hj hlen
      rw [drain]
      by_cases hr : j ∈ rest
      · exact ih _ hr (by rw [List.length_set]; exact hlen)
      · have hij : j = i := by
          rcases List.mem_cons.mp hj with h | h
          · exact h
          · exact absurd h hr
        subst hij
        rw [drain_get?_of_not_mem rest _ hr, List.get?_set, if_pos rfl,
          List.get?_eq_get hlen]
        rfl

theorem partition_all_large (l : List (Nat × JNum)) (acc : List Nat × List Nat)
    (h : ∀ p ∈ l, JNum.ltB p.2 (JNum.num 1) = false) :
    l.foldl
        (fun (sl : List Nat × List Nat) p =>
          if JNum.ltB p.2 (JNum.num 1) then (p.1 :: sl.1, sl.2)
          else (sl.1, p.1 :: sl.2)) acc
      = (acc.1, (l.map Prod.fst).reverse ++ acc.2) := by
  induction l generalizing acc with
  | nil => simp
  | cons x xs ih =>
      rw [List.foldl_cons, h x (List.mem_cons_self x xs), if_neg (by simp)]
      rw [ih (acc.1, x.1 :: acc.2) (fun p hp => h p (List.mem_cons_of_mem _ hp))]
      simp

theorem foldl_add_zeros (ws : List JNum) (h : ∀ w ∈ ws, w = JNum.num 0) :
    ∀ a : Rat, ws.foldl JNum.add (JNum.num a) = JNum.num a := by
  induction ws with
  | nil => intro a; rfl
  | cons w ws ih =>
      intro a
      rw [List.foldl_cons, h w (List.mem_cons_self w ws)]
      have : JNum.add (JNum.num a) (JNum.num 0) = JNum.num a := by
        simp [JNum.add]
      rw [this]
      exact ih (fun w hw => h w (List.mem_cons_of_mem _ hw)) a

theorem enumFrom_snd_mem {α : Type} :
    ∀ (l : List α) (n : Nat) (p : Nat × α), p ∈ l.enumFrom n → p.2 ∈ l := by
  intro l
  induction l with
  | nil => intro n p hp; simp [List.enumFrom] at hp
  | cons x xs ih =>
      intro n p hp
      rw [List.enumFrom, List.mem_cons] at hp
      rcases hp with hp | hp
      · subst hp; exact List.mem_cons_self x xs
      · exact List.mem_cons_of_mem _ (ih (n + 1) p hp)

theorem aliasLoop_nil_small (scaled : List JNum) (large : List Nat)
    (prob : List (Option JNum)) (aliasIdx : List (Option Nat)) :
    aliasLoop scaled [] large prob aliasIdx = (prob, aliasIdx, [], large) := by
  rw [aliasLoop]
  exact fun s smallT l largeT h _ => List.noConfusion h

/-- C5 (amended): `sampler` performs no zero-total check.  Built from
nonnegative weights summing to zero (all weights `0`), it signals no error
and returns a usable sampler: the division by the zero total makes every
scaled weight NaN, the NaN comparison sends every index to the `large`
worklist, the drain then sets every `prob[i] = 1`, and `pick` returns an
element of `items` for any draws in `[0, 1)`. -/
theorem sampler_zero_total_returns_uniform {T : Type} (items : List T)
    (selector : T → JNum) (hne : items ≠ [])
    (hw : ∀ x ∈ items, selector x = JNum.num 0) :
    (∀ j, j < items.length →
        (sampler items selector).prob.get? j = some (some (JNum.num 1))) ∧
    (∀ u1 u2 : Rat, 0 ≤ u1 → u1 < 1 → 0 ≤ u2 → u2 < 1 →
        ∃ x, (sampler items selector).pick u1 u2 = some x ∧ x ∈ items) := by
  have hwz : ∀ w ∈ items.map selector, w = JNum.num 0 := by
    intro w hw2
    obtain ⟨x, hx, rfl⟩ := List.mem_map.mp hw2
    exact hw x hx
  have htot : (items.map selector).foldl JNum.add (JNum.num 0) = JNum.num 0 :=
    foldl_add_zeros _ hwz 0
  have hsc : ∀ z ∈ (items.map selector).map
      (fun w => JNum.div (JNum.mul w (JNum.num (items.length : Rat))) (JNum.num 0)),
      z = JNum.nan := by
    intro z hz
    obtain ⟨w, hw2, rfl⟩ := List.mem_map.mp hz
    rw [hwz w hw2]
    simp [JNum.mul, JNum.div]
  have hpart := partition_all_large
      (((items.map selector).map
        (fun w => JNum.div (JNum.mul w (JNum.num (items.length : Rat)))
          (JNum.num 0))).enum)
      ([], [])
      (fun p hp => by rw [hsc p.2 (enumFrom_snd_mem _ 0 p hp)]; rfl)
  rw [List.enum_map_fst] at hpart
  simp only [List.length_map, List.append_nil] at hpart
  have hs : sampler items selector
      = { items := items,
          prob := drain ((List.range items.length).reverse)
              (List.replicate items.length none),
          aliasIdx := List.replicate items.length none } := by
    simp only [sampler, htot, List.length_map]
    rw [hpart]
    rw [show (([], (List.range items.length).reverse) :
        List Nat × List Nat).1 = [] from rfl]
    rw [show (([], (List.range items.length).reverse) :
        List Nat × List Nat).2 = (List.range items.length).reverse from rfl]
    rw [aliasLoop_nil_small]
    rfl
  have hget : ∀ j, j < items.length →
      (sampler items selector).prob.get? j = some (some (JNum.num 1)) := by
    intro j hj
    rw [hs]
    exact drain_get?_of_mem _ _ (by simp [hj]) (by simp [hj])
  refine ⟨hget, ?_⟩
  intro u1 u2 h1 h2 h3 h4
  have hlen0 : items.length ≠ 0 := fun h => hne (List.length_eq_zero.mp h)
  have hlpos : (0 : Rat) < items.length := by
    exact_mod_cast Nat.pos_of_ne_zero hlen0
  set i := (Int.floor (u1 * (items.length : Rat))).toNat with hi
  have hilt : i < items.length := by
    rw [hi, Int.toNat_lt' hlen0, Int.floor_lt]
    calc u1 * (items.length : Rat) < 1 * items.length :=
          mul_lt_mul_of_pos_right h2 hlpos
      _ = items.length := one_mul _
  have hitems : (sampler items selector).items = items := by rw [hs]
  have hgd : (sampler items selector).prob.getD i none = some (JNum.num 1) := by
    rw [show (sampler items selector).prob.getD i none
        = ((sampler items selector).prob.get? i).getD none from rfl, hget i hilt]
    rfl
  refine ⟨items.get ⟨i, hilt⟩, ?_, List.get_mem _ _ _⟩
  simp only [SamplerTable.pick, hitems]
  rw [← hi, hgd]
  rw [show ((some (JNum.num 1)).getD JNum.nan) = JNum.num 1 from rfl]
  rw [show JNum.ltB (JNum.num u2) (JNum.num 1) = true from by simp [JNum.ltB, h4]]
  simp only [if_true]
  exact List.get?_eq_get hilt

/-- C5 counterexample: built over two items with both weights `0` (total
weight zero), `sampler` does not signal any error — it returns a sampler
whose `prob` table is all `1`s and whose `pick` returns an item for
in-range draws, a usable (uniform) sampler. -/
theorem sampler_zero_weights_cex :
    (sampler [0, 1] (fun _ => JNum.num 0)).prob
      = [some (JNum.num 1), some (JNum.num 1)] ∧
    (sampler [0, 1] (fun _ => JNum.num 0)).pick (1 / 2) (1 / 2) = some 1 ∧
    (sampler [0, 1] (fun _ => JNum.num 0)).pick 0 0 = some 0 := by
  have hs := sampler_zero_total_returns_uniform [0, 1] (fun _ => JNum.num 0)
  refine ⟨?_, ?_, ?_⟩
  · simp [sampler, JNum.add, JNum.mul, JNum.div, List.enum, List.enumFrom,
      JNum.ltB, aliasLoop_nil_small, drain]
  · simp [sampler, JNum.add, JNum.mul, JNum.div, List.enum, List.enumFrom,
      JNum.ltB, aliasLoop_nil_small, drain, SamplerTable.pick]
    norm_num
  · simp [sampler, JNum.add, JNum.mul, JNum.div, List.enum, List.enumFrom,
      JNum.ltB, aliasLoop_nil_small, drain, SamplerTable.pick]

/-- Closed witness for `sampler_zero_total_returns_uniform` on a two-item
pool. -/
theorem sampler_zero_total_witness :
    ∃ x, (sampler [10, 20] (fun _ => JNum.num 0)).pick (1 / 4) (1 / 4) = some x ∧
      x ∈ [10, 20] :=
  (sampler_zero_total_returns_uniform [10, 20] (fun _ => JNum.num 0)
      (by decide) (fun _ _ => rfl)).2
    (1 / 4) (1 / 4) (by norm_num) (by norm_num) (by norm_num) (by norm_num)

/-! ## Recurring task Loop (src `Loop.ts`)

The Loop runs on a single-threaded event loop.  Each synchronous block of
the class — a timer callback reaching the `await`, the settling of the user
function's promise together with the re-check/re-arm continuation, or one
public method call — executes atomically; the scheduler (and the
application) chooses their interleaving.  We model this as a small-step
action semantics over an explicit state: `pending` is the set of timers the
runtime actually holds (`clearTimeout` on an already-fired handle is a
no-op, so the `timeoutId` field can go stale), `inFlight` the invocations
of the user function whose promises have not settled, `now` a virtual
clock, `events` the notifications emitted so far (most recent first).
Event-handler callbacks are modelled as standalone actions following the
emission rather than nested inside it. -/

inductive LoopState where
  | running
  | paused
  | stopped
  deriving DecidableEq

inductive LEvent where
  | start
  | tick
  | error
  | pause (remaining : Nat)
  | resume
  | stop
  deriving DecidableEq

/-- A live `setTimeout` handle: its identity and its due instant. -/
structure Timer where
  id : Nat
  fireAt : Nat
  deriving DecidableEq

structure LoopSt where
  state : LoopState
  pending : List Timer
  timeoutId : Option Nat
  delay : Nat
  startTime : Nat
  remaining : Nat
  inFlight : List Nat
  nextId : Nat
  now : Nat
  events : List LEvent
  deriving DecidableEq

/-- The scheduler/application steps: a timer fires, an in-flight invocation
settles (`ok = false` for a rejection), a public method is called, or time
passes. -/
inductive Act where
  | fire (tid : Nat)
  | settle (iid : Nat) (ok : Bool)
  | start
  | pause
  | resume
  | stop
  | setDelay (ms : Nat)
  | advance (dt : Nat)
  deriving DecidableEq

/-- `clearTimer()`: `if (this.timeoutId) { clearTimeout(this.timeoutId);
this.timeoutId = null }` — cancels the live timer named by `timeoutId` (a
no-op on an already-fired handle). -/
def clearTimer (s : LoopSt) : LoopSt :=
  { s with
    pending := s.pending.filter (fun t => !(some t.id = s.timeoutId : Bool))
    timeoutId := none }

/-- The synchronous prefix of `run()`: return unless `running`; otherwise
`await this.fn(this)` begins, putting a fresh invocation in flight. -/
def beginRun (s : LoopSt) : LoopSt :=
  match s.state with
  | LoopState.stopped => s
  | LoopState.paused => s
  | LoopState.running =>
      { s with inFlight := s.nextId :: s.inFlight, nextId := s.nextId + 1 }

/-- One atomic step of the Loop, following the source text of `run`,
`start`, `pause`, `resume`, `stop` and `setDelay`. -/
def applyAct (s : LoopSt) (a : Act) : LoopSt :=
  match a with
  | Act.fire tid =>
      beginRun { s with pending := s.pending.filter (fun t => !(t.id = tid : Bool)) }
  | Act.settle iid ok =>
      let s1 := { s with
        inFlight := s.inFlight.erase iid
        events := (if ok then LEvent.tick else LEvent.error) :: s.events }
      if s1.state = LoopState.running then
        let s2 := clearTimer { s1 with startTime := s1.now, remaining := 0 }
        { s2 with
          pending := { id := s2.nextId, fireAt := s2.now + s2.delay } :: s2.pending
          timeoutId := some s2.nextId
          nextId := s2.nextId + 1 }
      else s1
  | Act.start =>
      if s.state = LoopState.stopped then
        beginRun { s with state := LoopState.running, events := LEvent.start :: s.events }
      else s
  | Act.pause =>
      if s.state = LoopState.running then
        clearTimer { s with
          state := LoopState.paused
          remaining := s.delay - (s.now - s.startTime)
          events := LEvent.pause (s.delay - (s.now - s.startTime)) :: s.events }
      else s
  | Act.resume =>
      if s.state = LoopState.paused then
        let s1 := { s with state := LoopState.running, events := LEvent.resume :: s.events }
        if s1.remaining = 0 then beginRun s1
        else
          { s1 with
            pending := { id := s1.nextId, fireAt := s1.now + s1.remaining } :: s1.pending
            timeoutId := some s1.nextId
            nextId := s1.nextId + 1 }
      else s
  | Act.stop =>
      let s1 := clearTimer { s with state := LoopState.stopped, remaining := 0 }
      if s.state = LoopState.stopped then s1
      else { s1 with events := LEvent.stop :: s1.events }
  | Act.setDelay ms => { s with delay := ms }
  | Act.advance dt => { s with now := s.now + dt }

/-- Scheduler-side feasibility: a timer can only fire once it exists and is
due; only an in-flight invocation can settle; method calls and the passage
of time are always possible (an invalid-state call is a no-op). -/
def validActB (s : LoopSt) : Act → Bool
  | Act.fire tid =>
      s.pending.any (fun t => decide (t.id = tid) && decide (t.fireAt ≤ s.now))
  | Act.settle iid _ => s.inFlight.contains iid
  | _ => true

/-- The restriction of the amended single-flight claim: `start()` and
`resume()` are never invoked while an invocation is in flight. -/
def restrictB (s : LoopSt) : Act → Bool
  | Act.start => s.inFlight.isEmpty
  | Act.resume => s.inFlight.isEmpty
  | _ => true

def runActs (s : LoopSt) : List Act → LoopSt
  | [] => s
  | a :: rest => runActs (applyAct s a) rest

def validTrace (s : LoopSt) : List Act → Bool
  | [] => true
  | a :: rest => validActB s a && validTrace (applyAct s a) rest

def safeTrace (s : LoopSt) : List Act → Bool
  | [] => true
  | a :: rest => validActB s a && restrictB s a && safeTrace (applyAct s a) rest

/-- A freshly constructed Loop with `immediate = false`: `stopped`, no
timer, nothing in flight. -/
def initLoop (delay : Nat) : LoopSt :=
  { state := LoopState.stopped
    pending := []
    timeoutId := none
    delay := delay
    startTime := 0
    remaining := 0
    inFlight := []
    nextId := 0
    now := 0
    events := [] }

/-- The single-flight invariant: at most one invocation in flight, at most
one live timer, never both at once, a live timer only while `running`, and
every live timer is the one `timeoutId` names. -/
def LoopInv (s : LoopSt) : Prop :=
  s.inFlight.length ≤ 1 ∧
  s.pending.length ≤ 1 ∧
  (s.inFlight ≠ [] → s.pending = []) ∧
  (s.state ≠ LoopState.running → s.pending = []) ∧
  (∀ t ∈ s.pending, some t.id = s.timeoutId)

theorem length_le_one_eq_singleton {α : Type} {l : List α} {x : α}
    (h1 : l.length ≤ 1) (h2 : x ∈ l) : l = [x] := by
  cases l with
  | nil => simp at h2
  | cons a t =>
      cases t with
      | nil => rw [List.mem_singleton] at h2; rw [h2]
      | cons b t2 => simp at h1

theorem clearTimer_pending_nil {s : LoopSt}
    (h : ∀ t ∈ s.pending, some t.id = s.timeoutId) :
    (clearTimer s).pending = [] := by
  simp only [clearTimer]
  rw [List.filter_eq_nil_iff]
  intro t ht
  simp [h t ht]

theorem LoopInv_apply {s : LoopSt} {a : Act} (hInv : LoopInv s)
    (hv : validActB s a = true) (hr : restrictB s a = true) :
    LoopInv (applyAct s a) := by
  obtain ⟨h1, h2, h3, h4, h5⟩ := hInv
  cases a with
  | fire tid =>
      simp only [validActB, List.any_eq_true, Bool.and_eq_true,
        decide_eq_true_eq] at hv
      obtain ⟨t, ht, htid, _⟩ := hv
      have hpne : s.pending ≠ [] := fun hnil => by
        rw [hnil] at ht; exact List.not_mem_nil t ht
      have hifl : s.inFlight = [] := by
        by_contra hne2
        exact hpne (h3 hne2)
      have hrun : s.state = LoopState.running := by
        by_contra hne2
        exact hpne (h4 hne2)
      have hsingle : s.pending = [t] := length_le_one_eq_singleton h2 ht
      have hfil : s.pending.filter (fun t2 => !(t2.id = tid : Bool)) = [] := by
        rw [hsingle]
        simp [htid]
      simp only [applyAct, hfil, beginRun]
      simp only [hrun, hifl]
      exact ⟨by simp, by simp, fun _ => rfl, fun _ => rfl, by simp⟩
  | settle iid ok =>
      have hvm : iid ∈ s.inFlight := by simpa [validActB] using hv
      have hifne : s.inFlight ≠ [] := fun hnil => by
        rw [hnil] at hvm; exact List.not_mem_nil iid hvm
      have hpnil : s.pending = [] := h3 hifne
      have hsingle : s.inFlight = [iid] := length_le_one_eq_singleton h1 hvm
      have herase : s.inFlight.erase iid = [] := by rw [hsingle]; simp
      by_cases hst : s.state = LoopState.running
      · simp only [applyAct, herase, hst, if_true, clearTimer, hpnil]
        refine ⟨by simp, by simp, fun h => absurd rfl h, fun h => absurd rfl h, ?_⟩
        intro t ht
        simp at ht
        rw [ht]
      · simp only [applyAct, herase, hst, if_false]
        exact ⟨by simp, by simpa using h2, fun h => by simpa using hpnil,
          fun _ => by simpa using hpnil, by simpa using h5⟩
  | start =>
      by_cases hst : s.state = LoopState.stopped
      · simp only [restrictB, List.isEmpty_iff] at hr
        have hpnil : s.pending = [] := h4 (by rw [hst]; simp)
        simp only [applyAct, hst, if_true, beginRun, hr, hpnil]
        exact ⟨by simp, by simp, fun _ => rfl, fun _ => rfl, by simp⟩
      · simp only [applyAct, hst, if_false]
        exact ⟨h1, h2, h3, h4, h5⟩
  | pause =>
      by_cases hst : s.state = LoopState.running
      · simp only [applyAct, hst, if_true]
        have hpe : (clearTimer { s with
            state := LoopState.paused
            remaining := s.delay - (s.now - s.startTime)
            events := LEvent.pause (s.delay - (s.now - s.startTime)) :: s.events }).pending
            = [] := clearTimer_pending_nil h5
        rw [clearTimer] at hpe ⊢
        refine ⟨h1, by rw [hpe]; simp, fun _ => hpe, fun _ => hpe, ?_⟩
        intro t ht
        rw [hpe] at ht
        simp at ht
      · simp only [applyAct, hst, if_false]
        exact ⟨h1, h2, h3, h4, h5⟩
  | resume =>
      by_cases hst : s.state = LoopState.paused
      · simp only [restrictB, List.isEmpty_iff] at hr
        have hpnil : s.pending = [] := h4 (by rw [hst]; simp)
        by_cases hrem : s.remaining = 0
        · simp only [applyAct, hst, if_true, hrem, if_true, beginRun, hr, hpnil]
          exact ⟨by simp, by simp, fun _ => rfl, fun _ => rfl, by simp⟩
        · simp only [applyAct, hst, if_true, hrem, if_false, hr, hpnil]
          refine ⟨by simp, by simp, by simp, fun h => by simp at h, ?_⟩
          intro t ht
          simp at ht
          rw [ht]
      · simp only [applyAct, hst, if_false]
        exact ⟨h1, h2, h3, h4, h5⟩
  | stop =>
      have hpe : (clearTimer { s with
          state := LoopState.stopped, remaining := 0 }).pending = [] :=
        clearTimer_pending_nil h5
      by_cases hst : s.state = LoopState.stopped
      · simp only [applyAct, hst, if_true]
        rw [clearTimer] at hpe ⊢
        refine ⟨h1, by rw [hpe]; simp, fun _ => hpe, fun _ => hpe, ?_⟩
        intro t ht
        rw [hpe] at ht
        simp at ht
      · simp only [applyAct, hst, if_false]
        rw [clearTimer] at hpe ⊢
        refine ⟨h1, by rw [hpe]; simp, fun _ => hpe, fun _ => hpe, ?_⟩
        intro t ht
        rw [hpe] at ht
        simp at ht
  | setDelay ms =>
      exact ⟨h1, h2, h3, h4, h5⟩
  | advance dt =>
      exact ⟨h1, h2, h3, h4, h5⟩

theorem LoopInv_runActs :
    ∀ (tr : List Act) (s : LoopSt), LoopInv s → safeTrace s tr = true →
      LoopInv (runActs s tr) := by
  intro tr
  induction tr with
  | nil => intro s hInv _; exact hInv
  | cons a rest ih =>
      intro s hInv hsafe
      rw [safeTrace, Bool.and_eq_true, Bool.and_eq_true] at hsafe
      exact ih (applyAct s a) (LoopInv_apply hInv hsafe.1.1 hsafe.1.2) hsafe.2

/-- C2 (amended): over every feasible interleaving from a fresh Loop in
which `start()`/`resume()` are never called while an invocation is in
flight (and event handlers do not reenter the Loop API during emission —
handler calls are modelled as standalone steps), at most one invocation of
the user function is in flight and at most one timer is live at any
instant, a timer is armed only while nothing is in flight, and settling an
invocation arms the next timer only if the loop is still `running`. -/
theorem loop_single_flight (d : Nat) (tr : List Act)
    (hsafe : safeTrace (initLoop d) tr = true) :
    (runActs (initLoop d) tr).inFlight.length ≤ 1 ∧
    (runActs (initLoop d) tr).pending.length ≤ 1 ∧
    ((runActs (initLoop d) tr).inFlight ≠ [] →
      (runActs (initLoop d) tr).pending = []) ∧
    (∀ (s : LoopSt) (iid : Nat) (ok : Bool), s.state ≠ LoopState.running →
        (applyAct s (Act.settle iid ok)).pending = s.pending) := by
  have hInv0 : LoopInv (initLoop d) := by
    refine ⟨by simp [initLoop], by simp [initLoop], ?_, ?_, ?_⟩
    · intro h; rfl
    · intro h; rfl
    · intro t ht; simp [initLoop] at ht
  obtain ⟨h1, h2, h3, _, _⟩ := LoopInv_runActs tr (initLoop d) hInv0 hsafe
  refine ⟨h1, h2, h3, ?_⟩
  intro s iid ok hst
  simp only [applyAct, hst, if_false]

/-- Closed witness for `loop_single_flight`: a full start → tick → timer →
failing tick → stop interleaving. -/
theorem loop_single_flight_witness :
    (runActs (initLoop 5)
        [Act.start, Act.settle 0 true, Act.advance 5, Act.fire 1,
         Act.settle 2 false, Act.stop]).inFlight.length ≤ 1 ∧
    (runActs (initLoop 5)
        [Act.start, Act.settle 0 true, Act.advance 5, Act.fire 1,
         Act.settle 2 false, Act.stop]).pending.length ≤ 1 ∧
    ((runActs (initLoop 5)
        [Act.start, Act.settle 0 true, Act.advance 5, Act.fire 1,
         Act.settle 2 false, Act.stop]).inFlight ≠ [] →
      (runActs (initLoop 5)
        [Act.start, Act.settle 0 true, Act.advance 5, Act.fire 1,
         Act.settle 2 false, Act.stop]).pending = []) ∧
    (∀ (s : LoopSt) (iid : Nat) (ok : Bool), s.state ≠ LoopState.running →
        (applyAct s (Act.settle iid ok)).pending = s.pending) :=
  loop_single_flight 5
    [Act.start, Act.settle 0 true, Act.advance 5, Act.fire 1,
     Act.settle 2 false, Act.stop] (by decide)

/-- The interleaving refuting the unrestricted claim: `pause()` then
`resume()` while invocation 0 is still in flight re-arms a timer; when it
fires, invocation 2 starts while invocation 0 has not settled. -/
def overlapTrace : List Act :=
  [Act.start, Act.pause, Act.resume, Act.advance 5, Act.fire 1]

/-- C2 counterexample: a feasible interleaving of the Loop (delay 5) after
which two invocations of the user function are in flight simultaneously —
the single-flight claim fails without restricting `resume()`. -/
theorem loop_single_flight_cex :
    validTrace (initLoop 5) overlapTrace = true ∧
    (runActs (initLoop 5) overlapTrace).inFlight.length = 2 := by
  refine ⟨by decide, by decide⟩

/-- C3: `pause()` is a no-op unless `running`; from `running` it moves to
`paused`, sets `remaining = max(0, delay - (now - startTime))` (Nat
truncated subtraction), emits `pause` carrying exactly that value, and
cancels the live timer.  `resume()` is a no-op unless `paused`; from
`paused` it moves to `running`, emits `resume`, and when `remaining = 0`
invokes the user function immediately, else arms a timer due after exactly
`remaining` ms — not the full `delay`. -/
theorem loop_pause_resume (s s2 : LoopSt)
    (hrun : s.state = LoopState.running)
    (hwf : ∀ t ∈ s.pending, some t.id = s.timeoutId)
    (hp : s2.state = LoopState.paused) :
    ((applyAct s Act.pause).state = LoopState.paused ∧
     (applyAct s Act.pause).remaining = s.delay - (s.now - s.startTime) ∧
     (applyAct s Act.pause).events
        = LEvent.pause (s.delay - (s.now - s.startTime)) :: s.events ∧
     (applyAct s Act.pause).pending = []) ∧
    (∀ s3 : LoopSt, s3.state ≠ LoopState.running → applyAct s3 Act.pause = s3) ∧
    ((applyAct s2 Act.resume).state = LoopState.running ∧
     (applyAct s2 Act.resume).events = LEvent.resume :: s2.events ∧
     (s2.remaining = 0 →
        (applyAct s2 Act.resume).inFlight = s2.nextId :: s2.inFlight ∧
        (applyAct s2 Act.resume).pending = s2.pending) ∧
     (s2.remaining ≠ 0 →
        (applyAct s2 Act.resume).pending
          = { id := s2.nextId, fireAt := s2.now + s2.remaining } :: s2.pending ∧
        (applyAct s2 Act.resume).inFlight = s2.inFlight)) ∧
    (∀ s4 : LoopSt, s4.state ≠ LoopState.paused → applyAct s4 Act.resume = s4) := by
  refine ⟨⟨?_, ?_, ?_, ?_⟩, ?_, ⟨?_, ?_, ?_, ?_⟩, ?_⟩
  · simp [applyAct, hrun, clearTimer]
  · simp [applyAct, hrun, clearTimer]
  · simp [applyAct, hrun, clearTimer]
  · simp only [applyAct, hrun, if_true]
    exact clearTimer_pending_nil hwf
  · intro s3 hs3
    simp [applyAct, hs3]
  · simp only [applyAct, hp, if_true]
    by_cases hrem : s2.remaining = 0
    · simp [hrem, beginRun]
    · simp [hrem]
  · simp only [applyAct, hp, if_true]
    by_cases hrem : s2.remaining = 0
    · simp [hrem, beginRun]
    · simp [hrem]
  · intro hrem
    simp [applyAct, hp, hrem, beginRun]
  · intro hrem
    simp [applyAct, hp, hrem]
  · intro s4 hs4
    simp [applyAct, hs4]

/-- Closed witness for `loop_pause_resume`: a loop with delay 5 started at
`now = 0` and paused immediately. -/
theorem loop_pause_resume_witness :
    (applyAct (applyAct (initLoop 5) Act.start) Act.pause).state
        = LoopState.paused ∧
    (applyAct (applyAct (initLoop 5) Act.start) Act.pause).remaining
        = (applyAct (initLoop 5) Act.start).delay
          - ((applyAct (initLoop 5) Act.start).now
            - (applyAct (initLoop 5) Act.start).startTime) :=
  ⟨(loop_pause_resume (applyAct (initLoop 5) Act.start)
      (applyAct (applyAct (initLoop 5) Act.start) Act.pause)
      (by decide) (by decide) (by decide)).1.1,
   (loop_pause_resume (applyAct (initLoop 5) Act.start)
      (applyAct (applyAct (initLoop 5) Act.start) Act.pause)
      (by decide) (by decide) (by decide)).1.2.1⟩

/-- C9: when an invocation settles with a rejection while the loop is
`running`, the loop emits `error`, stays `running` (never `stopped`), and
still arms the next timer, due after the configured delay. -/
theorem loop_error_keeps_running (s : LoopSt) (iid : Nat)
    (hrun : s.state = LoopState.running) :
    (applyAct s (Act.settle iid false)).events = LEvent.error :: s.events ∧
    (applyAct s (Act.settle iid false)).state = LoopState.running ∧
    (applyAct s (Act.settle iid false)).state ≠ LoopState.stopped ∧
    (applyAct s (Act.settle iid false)).timeoutId = some s.nextId ∧
    ({ id := s.nextId, fireAt := s.now + s.delay } : Timer)
        ∈ (applyAct s (Act.settle iid false)).pending := by
  refine ⟨?_, ?_, ?_, ?_, ?_⟩ <;>
    simp [applyAct, hrun, clearTimer]

/-- Closed witness for `loop_error_keeps_running`: the first invocation of
a freshly started loop rejects. -/
theorem loop_error_keeps_running_witness :
    (applyAct (applyAct (initLoop 5) Act.start) (Act.settle 0 false)).state
        = LoopState.running ∧
    (applyAct (applyAct (initLoop 5) Act.start) (Act.settle 0 false)).events
        = LEvent.error :: (applyAct (initLoop 5) Act.start).events :=
  ⟨(loop_error_keeps_running (applyAct (initLoop 5) Act.start) 0 (by decide)).2.1,
   (loop_error_keeps_running (applyAct (initLoop 5) Act.start) 0 (by decide)).1⟩

end Qznt
